import Mathlib

/-!
# Verification of the erlcgo client core

Shallow embedding of the erlcgo Go client (rate limiting, response cache,
request coalescing, execution pipeline, subscription diff engine), with
theorems settling the specification claims.

Times and durations are modelled as rationals (seconds); Go's
`time.Time`/`time.Duration` arithmetic is exact at this granularity for
the values the claims mention.  Cached values and response bodies are
modelled by a type parameter `V`.
-/

namespace Erlcgo

/-! ## ResponseCache: `MemoryCache` from cache.go

The Go map `items map[string]*cacheItem` is modelled as an association
list keyed by `String`; map insertion overwrites the previous binding.
-/

/-- A cache entry: mirrors `cacheItem{value interface{}; expiration time.Time}`. -/
structure CacheItem (V : Type) where
  value : V
  expiration : ℚ
deriving DecidableEq, Repr

/-- The `MemoryCache.items` table. -/
def MCache (V : Type) := List (String × CacheItem V)

instance (V : Type) [DecidableEq V] : DecidableEq (MCache V) :=
  inferInstanceAs (DecidableEq (List (String × CacheItem V)))

/-- Association-list lookup: Go map read `c.items[key]`. -/
def MCache.lookup {V : Type} (c : MCache V) (key : String) : Option (CacheItem V) :=
  match c with
  | [] => none
  | (k, it) :: rest => if k = key then some it else MCache.lookup rest key

/-- Association-list removal: Go `delete(c.items, key)`. -/
def MCache.erase {V : Type} (c : MCache V) (key : String) : MCache V :=
  match c with
  | [] => []
  | (k, it) :: rest => if k = key then MCache.erase rest key else (k, it) :: MCache.erase rest key

/-- Association-list overwrite: Go map write `c.items[key] = item`. -/
def MCache.insert {V : Type} (c : MCache V) (key : String) (it : CacheItem V) : MCache V :=
  (key, it) :: MCache.erase c key

/-- `MemoryCache.Get` (cache.go lines 91-119).  Returns the value when the
entry exists and has not expired; when the entry exists but `now` is
strictly after its expiration, deletes it and reports a miss.  The pair
also carries the table after the call (lazy expiry mutates it). -/
def MCache.get {V : Type} (c : MCache V) (key : String) (now : ℚ) : Option V × MCache V :=
  match MCache.lookup c key with
  | none => (none, c)
  | some it =>
    if now > it.expiration then
      (none, MCache.erase c key)
    else
      (some it.value, c)

/-- `MemoryCache.Set` (cache.go lines 121-129): stores the value with
`expiration = now + ttl`, unconditionally. -/
def MCache.set {V : Type} (c : MCache V) (key : String) (value : V) (ttl now : ℚ) : MCache V :=
  MCache.insert c key { value := value, expiration := now + ttl }

/-- One pass of `MemoryCache.cleanupLoop`'s tick body (cache.go lines
146-159): removes every entry whose expiration is strictly before `now`. -/
def MCache.sweep {V : Type} (c : MCache V) (now : ℚ) : MCache V :=
  c.filter (fun kv => ¬ now > kv.2.expiration)

/-! ## RateGovernor: `RateLimiter` from client.go / types.go -/

/-- `RateLimit` record (types.go lines 129-138). -/
structure RateLimit where
  bucket : String
  limit : Int
  remaining : Int
  reset : ℚ
deriving DecidableEq, Repr

/-- The `RateLimiter.limits` map, modelled as a function. -/
def Limits := String → Option RateLimit

/-- `NewRateLimiter`: empty limits map. -/
def Limits.empty : Limits := fun _ => none

/-- `RateLimiter.UpdateFromHeaders` (client.go): unconditionally overwrites
the bucket's state. -/
def Limits.update (ls : Limits) (bucket : String) (limit remaining : Int) (reset : ℚ) : Limits :=
  fun b => if b = bucket then some ⟨bucket, limit, remaining, reset⟩ else ls b

/-- `RateLimiter.ShouldWait` (client.go lines 379-395).  `time.Until(reset)`
is `reset - now`. -/
def Limits.shouldWait (ls : Limits) (bucket : String) (now : ℚ) : ℚ × Bool :=
  match ls bucket with
  | none => (0, false)
  | some l =>
    if l.remaining ≤ 0 then
      let wait := l.reset - now
      if wait > 0 then (wait, true) else (0, false)
    else (0, false)

/-! ## Rate-limit metadata parsing (ratelimit_meta.go, retry_after.go)

HTTP header values are strings; integer parsing (`strconv.Atoi`) is
modelled by `String.toInt?`.  The `Retry-After` header, which Go parses
first as an integer and then as an HTTP date, is modelled by an explicit
sum of the three parse outcomes; JSON bodies are modelled as the optional
already-decoded record (`none` = empty or unparsable JSON), matching the
structure of `json.Unmarshal`'s success/failure branches. -/

/-- `RateLimitInfo` (ratelimit_meta.go lines 9-14). -/
structure RateLimitInfo where
  bucket : String
  limit : Int
  remaining : Int
  resetAt : ℚ
deriving DecidableEq, Repr

/-- The four `X-RateLimit-*` header values consumed by
`parseRateLimitHeaders`; an absent header reads as `""`. -/
structure RLHeaders where
  bucket : String
  limitStr : String
  remainingStr : String
  resetStr : String
deriving DecidableEq, Repr

/-- Header values with every field absent. -/
def RLHeaders.empty : RLHeaders := ⟨"", "", "", ""⟩

/-- `parseRateLimitHeaders` (ratelimit_meta.go lines 29-60): `nil` when all
four headers are absent; otherwise fields parse best-effort (failures
leave the zero value), and the reset epoch is taken as milliseconds when
above 10^12, else seconds.  Go's zero `time.Time` is modelled as `0`. -/
def parseRateLimitHeaders (h : RLHeaders) : Option RateLimitInfo :=
  if h.bucket = "" ∧ h.limitStr = "" ∧ h.remainingStr = "" ∧ h.resetStr = "" then
    none
  else
    some { bucket := h.bucket
           limit := (h.limitStr.toInt?).getD 0
           remaining := (h.remainingStr.toInt?).getD 0
           resetAt :=
             match h.resetStr.toInt? with
             | some epoch => if epoch > 1000000000000 then (epoch : ℚ) / 1000 else (epoch : ℚ)
             | none => 0 }

/-- `prcRateLimitBody` (retry_after.go lines 10-14): the structured 429
body.  `retryAfter` is the float64 `retry_after` in seconds. -/
structure PrcBody where
  message : String
  retryAfter : ℚ
  bucket : String
deriving DecidableEq, Repr

/-- `parseRetryAfter` (retry_after.go lines 16-29): `none` for an empty or
unparsable body or a non-positive `retry_after`; otherwise the duration in
seconds. -/
def parseRetryAfter (body : Option PrcBody) : Option ℚ :=
  match body with
  | none => none
  | some b => if b.retryAfter ≤ 0 then none else some b.retryAfter

/-- The three outcomes of reading the `Retry-After` header value: an
integer (`strconv.Atoi` succeeds), an HTTP date (`http.ParseTime`
succeeds), or a malformed value.  An absent header is `none` at the use
site. -/
inductive RAHeader where
  | secs (n : Int)
  | httpDate (t : ℚ)
  | malformed
deriving DecidableEq, Repr

/-- `parseRetryAfterHeader` (retry_after.go lines 31-51): integer seconds,
else `time.Until(date)` clamped at `0`, else `nil`. -/
def parseRetryAfterHeader (h : Option RAHeader) (now : ℚ) : Option ℚ :=
  match h with
  | none => none
  | some (.secs n) => some (n : ℚ)
  | some (.httpDate t) => some (if t - now < 0 then 0 else t - now)
  | some .malformed => none

/-- `parseRateLimitBucket` (retry_after.go lines 53-62). -/
def parseRateLimitBucket (body : Option PrcBody) : String :=
  match body with
  | none => ""
  | some b => b.bucket

/-- Rate-limiter feedback after one HTTP response: the exact decision
structure of doRequest lines 192-220 applied to the `"global"` bucket.
`status` is the HTTP status code, `h` the rate-limit headers, `raH` the
`Retry-After` header, `body` the decoded 429 body, `now` the current
time. -/
def rateLimitFeedback (ls : Limits) (status : Int) (h : RLHeaders)
    (raH : Option RAHeader) (body : Option PrcBody) (now : ℚ) : Limits :=
  let rl0 := parseRateLimitHeaders h
  let ra : Option ℚ :=
    if status = 429 then
      match parseRetryAfter body with
      | some d => some d
      | none => parseRetryAfterHeader raH now
    else none
  let noBucket : Bool :=
    match rl0 with
    | none => true
    | some i => i.bucket == ""
  let rl : Option RateLimitInfo :=
    if status = 429 ∧ noBucket = true then
      let bk := parseRateLimitBucket body
      if bk = "" then rl0
      else
        match rl0 with
        | none => some { bucket := bk, limit := 0, remaining := 0, resetAt := 0 }
        | some i => some { i with bucket := bk }
    else rl0
  match rl with
  | some i => ls.update "global" i.limit i.remaining i.resetAt
  | none =>
    if status = 429 then
      match ra with
      | some d => ls.update "global" 0 0 (now + d)
      | none => ls.update "global" 0 0 (now + 5)
    else ls

/-! ## ExecutionPipeline: `doRequest` (sequential projection)

`doRequestModel` embeds the cache/coalescing/stale-fallback decision
structure of `Client.doRequest` for a single sequential call.  The HTTP
execution itself (the `execute` closure) is abstracted by its outcome
`exec : Except String V`: `.ok body` for a successful decoded response,
`.error e` for a transport failure or non-2xx status.  Metrics, response
hooks, queue pacing and the rate-limit sleep do not affect the returned
value, the cache table, or any key, and are elided.  A configured cache
object is assumed present (`doRequest` allocates one when caching is
enabled).  `now1` is the time of the initial cache lookup, `now2` the
time the execution completes (`now1 ≤ now2` in any real run, though no
theorem needs it). -/

/-- HTTP method of the modelled request. -/
inductive Method where
  | get
  | post
deriving DecidableEq, Repr

/-- Client configuration fields consumed by `doRequest`: the server key,
the optional global API key, and the cache config (`Prefix`, `Enabled`,
`StaleIfError`, `TTL`). -/
structure ClientCfg where
  apiKey : String
  globalAPIKey : String
  pfx : String
  cacheEnabled : Bool
  staleIfError : Bool
  ttl : ℚ
deriving DecidableEq, Repr

deriving instance DecidableEq for Except

/-- Observable outcome of one `doRequest` call: the result returned to
the caller, the cache table afterwards, and every key the call used
(cache read at the top, cache write on success, stale read on error,
request-coalescing key). -/
structure DoOutcome (V : Type) where
  result : Except String V
  cache : MCache V
  cacheReadKey : Option String
  cacheWriteKey : Option String
  staleReadKey : Option String
  coalesceKey : Option String
deriving DecidableEq

/-- The pipeline tail after the cache lookup missed (or was skipped):
execute, then on success populate the cache (GET with caching enabled,
doRequest lines 265-273), on failure fall back to a stale cache read when
`StaleIfError` is set (doRequest lines 324-336). -/
def afterExec {V : Type} (cfg : ClientCfg) (m : Method) (url : String) (c : MCache V)
    (now2 : ℚ) (exec : Except String V) (rkey ckey : Option String) : DoOutcome V :=
  match exec with
  | .ok body =>
    if cfg.cacheEnabled = true ∧ m = .get then
      { result := .ok body
        cache := MCache.set c (cfg.pfx ++ url) body cfg.ttl now2
        cacheReadKey := rkey
        cacheWriteKey := some (cfg.pfx ++ url)
        staleReadKey := none
        coalesceKey := ckey }
    else
      { result := .ok body, cache := c, cacheReadKey := rkey
        cacheWriteKey := none, staleReadKey := none, coalesceKey := ckey }
  | .error e =>
    if cfg.staleIfError = true then
      match MCache.get c (cfg.pfx ++ url) now2 with
      | (some v, c2) =>
        { result := .ok v, cache := c2, cacheReadKey := rkey
          cacheWriteKey := none, staleReadKey := some (cfg.pfx ++ url), coalesceKey := ckey }
      | (none, c2) =>
        { result := .error e, cache := c2, cacheReadKey := rkey
          cacheWriteKey := none, staleReadKey := some (cfg.pfx ++ url), coalesceKey := ckey }
    else
      { result := .error e, cache := c, cacheReadKey := rkey
        cacheWriteKey := none, staleReadKey := none, coalesceKey := ckey }

/-- One sequential `doRequest` call (doRequest lines 107-343): empty-key
precondition check, cache lookup for enabled GETs (early return on hit,
before coalescing), request coalescing keyed by the URL for GETs, then
`afterExec`. -/
def doRequestModel {V : Type} (cfg : ClientCfg) (m : Method) (url : String)
    (cache : MCache V) (now1 now2 : ℚ) (exec : Except String V) : DoOutcome V :=
  if cfg.apiKey = "" then
    { result := .error "API key is empty", cache := cache, cacheReadKey := none
      cacheWriteKey := none, staleReadKey := none, coalesceKey := none }
  else
    let ckey : Option String := if m = .get then some url else none
    if cfg.cacheEnabled = true ∧ m = .get then
      let key := cfg.pfx ++ url
      match MCache.get cache key now1 with
      | (some v, c1) =>
        { result := .ok v, cache := c1, cacheReadKey := some key
          cacheWriteKey := none, staleReadKey := none, coalesceKey := none }
      | (none, c1) => afterExec cfg m url c1 now2 exec (some key) ckey
    else
      afterExec cfg m url cache now2 exec none ckey

/-! ## SubscriptionEngine tick bodies (subscription.go)

Each poll-tick case of `SubscribeWithConfig`'s loop is embedded as a pure
function from the saved state and the freshly fetched collection to the
emission decision and the new state.  Go's `map[string]struct{}` sets are
modelled as duplicate-free `List String` with `contains` membership (the
map's unspecified iteration order is fixed to insertion order; no claim
depends on the order of elements within one batch).  Emission `some
batch` models the single `sub.Events <- Event{...}` send attempted for a
non-empty batch (the channel-full drop is a capacity concern outside
these claims). -/

/-- `ERLCServerPlayer` (types.go lines 11-20). -/
structure ERLCServerPlayer where
  player : String
  permission : String
  callsign : String
  team : String
deriving DecidableEq, Repr

/-- `PlayerEvent` (types.go lines 220-223). -/
structure PlayerEvent where
  player : ERLCServerPlayer
  type : String
deriving DecidableEq, Repr

/-- `newPlayerSetFromSlice` (subscription.go lines 13-19): the set of
player names occurring in the slice. -/
def newPlayerSetFromSlice (ps : List ERLCServerPlayer) : List String :=
  (ps.map (fun p => p.player)).dedup

/-- The players case of the poll tick (subscription.go lines 154-188):
joins are players of the fresh slice whose name is not in the old set (in
slice order), leaves are old names absent from the new set, each carrying
a payload with only the name field set; both are appended into one
`changes` batch. -/
def playersTick (oldSet : List String) (players : List ERLCServerPlayer) :
    List PlayerEvent × List String :=
  let newSet := newPlayerSetFromSlice players
  let joins := (players.filter (fun p => ¬ oldSet.contains p.player)).map
      (fun p => { player := p, type := "join" })
  let leaves := (oldSet.filter (fun n => ¬ newSet.contains n)).map
      (fun n => { player := { player := n, permission := "", callsign := "", team := "" }
                  type := "leave" })
  (joins ++ leaves, newSet)

/-- The emission decision for the players case: one event carrying the
whole batch iff the batch is non-empty (subscription.go lines 182-187). -/
def playersEmit (oldSet : List String) (players : List ERLCServerPlayer) :
    Option (List PlayerEvent) :=
  let changes := (playersTick oldSet players).1
  if changes.isEmpty then none else some changes

/-- `ERLCVehicle` (types.go lines 63-70). -/
structure ERLCVehicle where
  texture : String
  name : String
  owner : String
deriving DecidableEq, Repr

/-- The vehicle identity key `v.Owner + ":" + v.Name`
(subscription.go lines 113, 266, 276). -/
def vehicleKey (v : ERLCVehicle) : String := v.owner ++ ":" ++ v.name

/-- The vehicles case of the poll tick (subscription.go lines 262-288):
the new identity-key set replaces the old one, and the batch contains
exactly the fresh vehicles whose key is not in the old set; it is emitted
iff non-empty.  Vehicles present only in the old set produce nothing. -/
def vehiclesTick (oldSet : List String) (vehicles : List ERLCVehicle) :
    Option (List ERLCVehicle) × List String :=
  let newSet := (vehicles.map vehicleKey).dedup
  let newVehicles := vehicles.filter (fun v => ¬ oldSet.contains (vehicleKey v))
  (if newVehicles.isEmpty then none else some newVehicles, newSet)

/-- `ERLCCommandLog` (types.go lines 23-30). -/
structure ERLCCommandLog where
  player : String
  timestamp : Int
  command : String
deriving DecidableEq, Repr

/-- `ERLCModCallLog` (types.go lines 33-40). -/
structure ERLCModCallLog where
  caller : String
  moderator : String
  timestamp : Int
deriving DecidableEq, Repr

/-- `ERLCKillLog` (types.go lines 43-50). -/
structure ERLCKillLog where
  killed : String
  timestamp : Int
  killer : String
deriving DecidableEq, Repr

/-- `ERLCJoinLog` (types.go lines 53-60). -/
structure ERLCJoinLog where
  join : Bool
  timestamp : Int
  player : String
deriving DecidableEq, Repr

/-- The commands case of the poll tick (subscription.go lines 190-206):
on a non-empty batch whose first entry's timestamp strictly exceeds the
recorded one, emit the whole batch and advance the recorded timestamp;
otherwise emit nothing and keep the state. -/
def commandsTick (lastTime : Int) (logs : List ERLCCommandLog) :
    Option (List ERLCCommandLog) × Int :=
  match logs with
  | [] => (none, lastTime)
  | l :: rest =>
    if l.timestamp > lastTime then (some (l :: rest), l.timestamp) else (none, lastTime)

/-- The mod-calls case of the poll tick (subscription.go lines 208-224). -/
def modCallsTick (lastTime : Int) (logs : List ERLCModCallLog) :
    Option (List ERLCModCallLog) × Int :=
  match logs with
  | [] => (none, lastTime)
  | l :: rest =>
    if l.timestamp > lastTime then (some (l :: rest), l.timestamp) else (none, lastTime)

/-- The kills case of the poll tick (subscription.go lines 226-242). -/
def killsTick (lastTime : Int) (logs : List ERLCKillLog) :
    Option (List ERLCKillLog) × Int :=
  match logs with
  | [] => (none, lastTime)
  | l :: rest =>
    if l.timestamp > lastTime then (some (l :: rest), l.timestamp) else (none, lastTime)

/-- The joins case of the poll tick (subscription.go lines 244-260). -/
def joinsTick (lastTime : Int) (logs : List ERLCJoinLog) :
    Option (List ERLCJoinLog) × Int :=
  match logs with
  | [] => (none, lastTime)
  | l :: rest =>
    if l.timestamp > lastTime then (some (l :: rest), l.timestamp) else (none, lastTime)

/-! ## RequestCoalescer: `group.Do` (doRequest part, lines 345-379)

`group.Do` is concurrent; it is embedded as a small-step transition
system.  The global state holds the `g.m` table (`inflight`), a history
of call records (`calls`, never garbage-collected so completed results
stay observable in theorems), and the allocator for record ids.  Each
thread runs one `Do(key, fn)` invocation; its program counter follows the
source line by line:

* `start`: before the locked table lookup (lines 357-365);
* `waiting`: found an in-flight record, blocked in `c.wg.Wait()`
  (line 363);
* `computing`: registered a fresh record (lines 366-369), executing `fn`
  (line 371);
* `finishing`: after `c.wg.Done()` (line 372), before the locked
  `delete(g.m, key)` (lines 374-376) — arrivals in this window still
  join the completed record, exactly as in the source;
* `finished`: returned `(c.val, c.err)` (lines 364, 378).

`fn`'s return value is a nondeterministic parameter of the `execFinish`
step.  Lock-protected compound actions (lookup-and-register,
record-result, delete) are single steps, which is what the mutex makes
atomic in the source. -/

namespace Coalesce

/-- Status of one call record: `fn` still running, or completed with a
result (`call.val`/`call.err` as one value of type `R`). -/
inductive CallStatus (R : Type) where
  | running
  | done (r : R)
deriving DecidableEq, Repr

/-- Global coalescer state: the `g.m` map from key to in-flight record
id, the record history, and the fresh-id counter. -/
structure GState (K R : Type) where
  inflight : K → Option Nat
  calls : Nat → Option (K × CallStatus R)
  nextId : Nat

/-- Program counter of one `Do(key, fn)` invocation. -/
inductive TState (K R : Type) where
  | start (k : K)
  | waiting (k : K) (c : Nat)
  | computing (k : K) (c : Nat)
  | finishing (k : K) (c : Nat) (r : R)
  | finished (k : K) (c : Nat) (r : R)
deriving DecidableEq, Repr

/-- Whole-system state: global state plus a partial map of threads. -/
structure Sys (K R : Type) where
  g : GState K R
  threads : Nat → Option (TState K R)

/-- Update one thread's program counter. -/
def setThread {K R : Type} (ts : Nat → Option (TState K R)) (i : Nat) (t : TState K R) :
    Nat → Option (TState K R) :=
  fun j => if j = i then some t else ts j

/-- The record id a thread is currently responsible for executing. -/
def ownerOf {K R : Type} : TState K R → Option Nat
  | .computing _ c => some c
  | .finishing _ c _ => some c
  | _ => none

/-- One interleaved step of thread `i`, following `group.Do`. -/
inductive Step {K R : Type} [DecidableEq K] (i : Nat) : Sys K R → Sys K R → Prop where
  /-- Lines 361-363: the locked lookup finds an in-flight record; join it. -/
  | lookupHit (s : Sys K R) (k : K) (c : Nat)
      (ht : s.threads i = some (.start k))
      (hc : s.g.inflight k = some c) :
      Step i s ⟨s.g, setThread s.threads i (.waiting k c)⟩
  /-- Lines 366-369: no record in flight; register a fresh one and start
  executing `fn`. -/
  | lookupMiss (s : Sys K R) (k : K)
      (ht : s.threads i = some (.start k))
      (hc : s.g.inflight k = none) :
      Step i s
        ⟨{ inflight := fun k' => if k' = k then some s.g.nextId else s.g.inflight k'
           calls := fun c' => if c' = s.g.nextId then some (k, .running) else s.g.calls c'
           nextId := s.g.nextId + 1 },
         setThread s.threads i (.computing k s.g.nextId)⟩
  /-- Lines 371-372: `fn` returns `r` (nondeterministic); record it and
  release the waiters. -/
  | execFinish (s : Sys K R) (k : K) (c : Nat) (r : R)
      (ht : s.threads i = some (.computing k c)) :
      Step i s
        ⟨{ inflight := s.g.inflight
           calls := fun c' => if c' = c then some (k, .done r) else s.g.calls c'
           nextId := s.g.nextId },
         setThread s.threads i (.finishing k c r)⟩
  /-- Lines 374-378: the locked `delete(g.m, key)`, then return. -/
  | removeEntry (s : Sys K R) (k : K) (c : Nat) (r : R)
      (ht : s.threads i = some (.finishing k c r)) :
      Step i s
        ⟨{ inflight := fun k' => if k' = k then none else s.g.inflight k'
           calls := s.g.calls
           nextId := s.g.nextId },
         setThread s.threads i (.finished k c r)⟩
  /-- Lines 363-364: `c.wg.Wait()` returns once the record is done; the
  waiter returns the recorded result. -/
  | waitDone (s : Sys K R) (k : K) (c : Nat) (r : R)
      (ht : s.threads i = some (.waiting k c))
      (hc : s.g.calls c = some (k, .done r)) :
      Step i s ⟨s.g, setThread s.threads i (.finished k c r)⟩

/-- Initial system: empty table (`g.m == nil` behaves as empty), no
records, and a set of pending `Do` invocations given by their keys. -/
def initSys {K R : Type} (pend : Nat → Option K) : Sys K R :=
  { g := { inflight := fun _ => none, calls := fun _ => none, nextId := 0 }
    threads := fun i => (pend i).map .start }

/-- Reflexive-transitive closure of interleaved steps by any thread. -/
inductive Reachable {K R : Type} [DecidableEq K] : Sys K R → Sys K R → Prop where
  | refl (s : Sys K R) : Reachable s s
  | tail (s s' s'' : Sys K R) : Reachable s s' → (∃ i, Step i s' s'') → Reachable s s''

/-- The inductive invariant of the coalescer. -/
structure Inv {K R : Type} (s : Sys K R) : Prop where
  fresh : ∀ c, s.g.nextId ≤ c → s.g.calls c = none
  inflight_calls : ∀ k c, s.g.inflight k = some c → ∃ st, s.g.calls c = some (k, st)
  running_inflight : ∀ c k, s.g.calls c = some (k, .running) → s.g.inflight k = some c
  computing_st : ∀ i k c, s.threads i = some (.computing k c) →
      s.g.calls c = some (k, .running) ∧ s.g.inflight k = some c
  finishing_st : ∀ i k c r, s.threads i = some (.finishing k c r) →
      s.g.calls c = some (k, .done r) ∧ s.g.inflight k = some c
  waiting_st : ∀ i k c, s.threads i = some (.waiting k c) →
      ∃ st, s.g.calls c = some (k, st)
  finished_st : ∀ i k c r, s.threads i = some (.finished k c r) →
      s.g.calls c = some (k, .done r)
  owner_unique : ∀ i j ti tj c, s.threads i = some ti → s.threads j = some tj →
      ownerOf ti = some c → ownerOf tj = some c → i = j

/-- A one-thread pending pool, for exercising the theorems. -/
def pend0 : Nat → Option String := fun i => if i = 0 then some "k" else none

/-- The initial system of `pend0`. -/
def sys0 : Sys String Int := initSys pend0

/-- The successor of `sys0` after thread `0` performs its lookup. -/
def sys1 : Sys String Int :=
  { g := { inflight := fun k' => if k' = "k" then some sys0.g.nextId else sys0.g.inflight k'
           calls := fun c' => if c' = sys0.g.nextId then some ("k", .running) else sys0.g.calls c'
           nextId := sys0.g.nextId + 1 }
    threads := setThread sys0.threads 0 (.computing "k" sys0.g.nextId) }

end Coalesce

end Erlcgo

/-! # Theorems -/

namespace Erlcgo

/-- Looking up a key just erased always misses. -/
theorem MCache.lookup_erase_self {V : Type} (c : MCache V) (key : String) :
    MCache.lookup (MCache.erase c key) key = none := by
  induction c with
  | nil => rfl
  | cons hd tl ih =>
    obtain ⟨k, it⟩ := hd
    by_cases h : k = key
    · simpa [MCache.erase, h] using ih
    · simpa [MCache.erase, MCache.lookup, h] using ih

/-- Looking up the key just inserted returns the inserted item. -/
theorem MCache.lookup_insert_self {V : Type} (c : MCache V) (key : String) (it : CacheItem V) :
    MCache.lookup (MCache.insert c key it) key = some it := by
  simp [MCache.insert, MCache.lookup]

/-- After a `Get` miss, a second `Get` of the same key on the returned
table misses at every time: the miss either found nothing, or found an
expired entry and deleted it. -/
theorem MCache.get_after_miss {V : Type} (c : MCache V) (key : String) (now1 now2 : ℚ)
    (h : (MCache.get c key now1).1 = none) :
    (MCache.get (MCache.get c key now1).2 key now2).1 = none := by
  cases hl : MCache.lookup c key with
  | none => simp [MCache.get, hl]
  | some it =>
    by_cases he : now1 > it.expiration
    · simp [MCache.get, hl, he, MCache.lookup_erase_self]
    · simp [MCache.get, hl, he] at h

/-- Claim C4: contrary to the claim (and to the `Cache` interface's own
documentation "If ttl <= 0, the item will be cached indefinitely"),
`MemoryCache.Set` stores `expiration = now + ttl`, so with `ttl ≤ 0` the
entry is already expired at every strictly later time and every later
`Get` lazily deletes it and misses. -/
theorem mcache_nonpositive_ttl_expires {V : Type} (c : MCache V) (key : String) (v : V)
    (ttl now later : ℚ) (httl : ttl ≤ 0) (hlater : now < later) :
    (MCache.get (MCache.set c key v ttl now) key later).1 = none := by
  have hexp : later > now + ttl := by linarith
  simp [MCache.get, MCache.set, MCache.lookup_insert_self, hexp]

/-- Witness for `mcache_nonpositive_ttl_expires`: the concrete failing
input of the claim — `Set("k", "v", 0)` at time `0`, `Get("k")` at time
`1` misses instead of returning the value. -/
theorem mcache_nonpositive_ttl_expires_witness :
    (0 : ℚ) ≤ 0 ∧ (0 : ℚ) < 1 ∧
      (MCache.get (MCache.set ([] : MCache String) "k" "v" 0 0) "k" 1).1 = none :=
  ⟨le_refl 0, by norm_num,
    mcache_nonpositive_ttl_expires ([] : MCache String) "k" "v" 0 0 1 (le_refl 0) (by norm_num)⟩

/-- Claim C2: contrary to the claim, with caching enabled the stale-if-error
fallback can never fire for a GET: the call only reaches execution when
the opening cache lookup missed, and a miss either found no entry or
lazily deleted the expired one — so the stale read after a failing
execution misses as well and the caller receives the error even with
`StaleIfError` enabled. -/
theorem staleIfError_dead_for_enabled_get {V : Type} (cfg : ClientCfg) (url : String)
    (cache : MCache V) (now1 now2 : ℚ) (e : String)
    (hkey : ¬ cfg.apiKey = "") (hen : cfg.cacheEnabled = true)
    (hmiss : (MCache.get cache (cfg.pfx ++ url) now1).1 = none) :
    (doRequestModel cfg .get url cache now1 now2 (.error e)).result = .error e := by
  have hm2 := MCache.get_after_miss cache (cfg.pfx ++ url) now1 now2 hmiss
  rcases hg : MCache.get cache (cfg.pfx ++ url) now1 with ⟨f1, c1⟩
  rw [hg] at hmiss hm2
  cases f1 with
  | some v => simp at hmiss
  | none =>
    rcases hg2 : MCache.get c1 (cfg.pfx ++ url) now2 with ⟨f2, c2⟩
    rw [hg2] at hm2
    cases f2 with
    | some v => simp at hm2
    | none =>
      by_cases hs : cfg.staleIfError = true
      · simp [doRequestModel, hkey, hen, hg, afterExec, hs, hg2]
      · simp [doRequestModel, hkey, hen, hg, afterExec, hs]

/-- Witness for `staleIfError_dead_for_enabled_get`: the claim's concrete
sequence — a value cached at time 0 with TTL 5, a later call at time 10
whose execution fails — returns the error despite `StaleIfError = true`. -/
theorem staleIfError_dead_for_enabled_get_witness :
    ¬ ("srv" : String) = "" ∧
    (MCache.get (MCache.set ([] : MCache String) ("p:" ++ "u") "cachedVal" 5 0) ("p:" ++ "u") 10).1
      = none ∧
    (doRequestModel (⟨"srv", "", "p:", true, true, 5⟩ : ClientCfg) .get "u"
        (MCache.set ([] : MCache String) ("p:" ++ "u") "cachedVal" 5 0) 10 10 (.error "boom")).result
      = .error "boom" := by
  have h105 : (10 : ℚ) > 0 + 5 := by norm_num
  have hmiss : (MCache.get (MCache.set ([] : MCache String) ("p:" ++ "u") "cachedVal" 5 0)
      ("p:" ++ "u") 10).1 = none := by
    simp [MCache.get, MCache.set, MCache.lookup_insert_self, h105]
    norm_num
  exact ⟨by decide, hmiss,
    staleIfError_dead_for_enabled_get (⟨"srv", "", "p:", true, true, 5⟩ : ClientCfg) "u"
      (MCache.set ([] : MCache String) ("p:" ++ "u") "cachedVal" 5 0) 10 10 "boom"
      (by decide) rfl hmiss⟩

/-- Claim C5: `ShouldWait(b)` returns `(d, true)` with `d > 0` exactly when
state for `b` exists with `Remaining ≤ 0` and a strictly future `Reset`,
and `d` is then the remaining time until `Reset`; in every other case —
including when no state for `b` was ever recorded — it returns
`(0, false)`. -/
theorem shouldWait_spec (ls : Limits) (b : String) (now d : ℚ) (w : Bool)
    (h : ls.shouldWait b now = (d, w)) :
    (w = true ∧ 0 < d ∧
      ∃ l, ls b = some l ∧ l.remaining ≤ 0 ∧ now < l.reset ∧ d = l.reset - now)
    ∨ (w = false ∧ d = 0 ∧
      ∀ l, ls b = some l → l.remaining ≤ 0 → now < l.reset → False) := by
  unfold Limits.shouldWait at h
  cases hb : ls b with
  | none =>
    rw [hb] at h
    simp only [Prod.mk.injEq] at h
    right
    refine ⟨h.2.symm, h.1.symm, ?_⟩
    intro l hl
    simp at hl
  | some l =>
    rw [hb] at h
    by_cases hr : l.remaining ≤ 0
    · by_cases hw : l.reset - now > 0
      · simp only [hr, if_true, hw, if_pos, Prod.mk.injEq] at h
        left
        refine ⟨h.2.symm, ?_, l, rfl, hr, by linarith, h.1.symm⟩
        rw [← h.1]
        linarith
      · simp only [hr, hw, if_true, if_false, Prod.mk.injEq] at h
        right
        refine ⟨h.2.symm, h.1.symm, ?_⟩
        intro l' hl' _ hfut
        obtain rfl : l = l' := by injection hl'
        exact hw (by linarith)
    · simp only [hr, if_false, Prod.mk.injEq] at h
      right
      refine ⟨h.2.symm, h.1.symm, ?_⟩
      intro l' hl' hr' _
      obtain rfl : l = l' := by injection hl'
      exact hr hr'

/-- Witness for `shouldWait_spec`: the spec's example — `remaining = 0`
and `resetAt` two seconds in the future yields `(2, true)`. -/
theorem shouldWait_spec_witness :
    Limits.shouldWait (Limits.update Limits.empty "g" 10 0 2) "g" 0 = (2, true) ∧
    ((true = true ∧ (0 : ℚ) < 2 ∧
      ∃ l, (Limits.update Limits.empty "g" 10 0 2) "g" = some l ∧
        l.remaining ≤ 0 ∧ (0 : ℚ) < l.reset ∧ (2 : ℚ) = l.reset - 0)
    ∨ (true = false ∧ (2 : ℚ) = 0 ∧
      ∀ l, (Limits.update Limits.empty "g" 10 0 2) "g" = some l →
        l.remaining ≤ 0 → (0 : ℚ) < l.reset → False)) := by
  have heq : Limits.shouldWait (Limits.update Limits.empty "g" 10 0 2) "g" 0 = (2, true) := by
    simp [Limits.shouldWait, Limits.update]
  exact ⟨heq, shouldWait_spec (Limits.update Limits.empty "g" 10 0 2) "g" 0 2 true heq⟩

/-- Claim C6 counterexample: a 429 response with no rate-limit headers, no
`Retry-After` header, and no structured `retry_after` in the body — but
whose body does carry a `bucket` string — makes doRequest synthesize a
`RateLimitInfo` from the body bucket and take the header-update branch,
recording the zero reset time instead of the claimed `now + 5`. -/
theorem rateLimitFeedback_bucket_only_no_fallback :
    parseRateLimitHeaders RLHeaders.empty = none
    ∧ parseRetryAfter (some ⟨"m", 0, "b"⟩) = none
    ∧ parseRetryAfterHeader none 100 = none
    ∧ rateLimitFeedback Limits.empty 429 RLHeaders.empty none (some ⟨"m", 0, "b"⟩) 100 "global"
        = some ⟨"global", 0, 0, 0⟩
    ∧ rateLimitFeedback Limits.empty 429 RLHeaders.empty none (some ⟨"m", 0, "b"⟩) 100 "global"
        ≠ some ⟨"global", 0, 0, 100 + 5⟩ := by
  have h4 : rateLimitFeedback Limits.empty 429 RLHeaders.empty none (some ⟨"m", 0, "b"⟩) 100
      "global" = some ⟨"global", 0, 0, 0⟩ := by
    simp [rateLimitFeedback, parseRateLimitHeaders, RLHeaders.empty, parseRetryAfter,
      parseRetryAfterHeader, parseRateLimitBucket, Limits.update]
  refine ⟨by simp [parseRateLimitHeaders, RLHeaders.empty], by simp [parseRetryAfter], rfl, h4, ?_⟩
  rw [h4]
  intro hcontra
  have : (0 : ℚ) = 100 + 5 := congrArg (fun o => (o.getD ⟨"", 0, 0, 0⟩).reset) hcontra
  norm_num at this

/-- Claim C6 amended: if a 429 response carries no rate-limit headers, no
`Retry-After` header, and its body yields neither a structured
`retry_after` nor a `bucket` value, the pipeline updates the `"global"`
bucket with limit 0, remaining 0, and reset time `now + 5` seconds. -/
theorem rateLimitFeedback_429_fallback (ls : Limits) (h : RLHeaders) (raH : Option RAHeader)
    (body : Option PrcBody) (now : ℚ)
    (hh : parseRateLimitHeaders h = none)
    (hra : parseRetryAfterHeader raH now = none)
    (hb : parseRetryAfter body = none)
    (hbk : parseRateLimitBucket body = "") :
    rateLimitFeedback ls 429 h raH body now = ls.update "global" 0 0 (now + 5) := by
  simp [rateLimitFeedback, hh, hra, hb, hbk]

/-- Witness for `rateLimitFeedback_429_fallback`: an empty-bodied 429 with
no usable headers at time 100 sets the global bucket to reset at 105. -/
theorem rateLimitFeedback_429_fallback_witness :
    parseRateLimitHeaders RLHeaders.empty = none
    ∧ parseRetryAfterHeader none 100 = none
    ∧ parseRetryAfter none = none
    ∧ parseRateLimitBucket none = ""
    ∧ rateLimitFeedback Limits.empty 429 RLHeaders.empty none none 100
        = Limits.update Limits.empty "global" 0 0 (100 + 5) :=
  ⟨by simp [parseRateLimitHeaders, RLHeaders.empty], rfl, rfl, rfl,
    rateLimitFeedback_429_fallback Limits.empty RLHeaders.empty none none 100
      (by simp [parseRateLimitHeaders, RLHeaders.empty]) rfl rfl rfl⟩

/-- Claim C3 counterexample: old vehicle set `{"o:v"}`, new poll empty — the
symmetric difference of the identity sets is non-empty (the vehicle was
removed), yet the tick emits nothing: the vehicles case only ever emits
added vehicles. -/
theorem vehiclesTick_removed_only_silent :
    ("o:v" ∈ (["o:v"] : List String))
    ∧ "o:v" ∉ ((([] : List ERLCVehicle).map vehicleKey).dedup)
    ∧ (vehiclesTick ["o:v"] []).1 = none
    ∧ (vehiclesTick ["o:v"] []).2 = [] := by
  refine ⟨by simp, by simp, rfl, rfl⟩

/-- Claim C3 amended: on each vehicles poll tick the engine replaces the stored
identity-key set (key = owner ++ ":" ++ name) with the fresh poll's key
set and emits, iff non-empty, the batch of exactly the fresh vehicles
whose key was not in the old set; removed vehicles are never emitted. -/
theorem vehiclesTick_spec (oldSet : List String) (vehicles : List ERLCVehicle) :
    (vehiclesTick oldSet vehicles).2 = (vehicles.map vehicleKey).dedup
    ∧ (∀ b, (vehiclesTick oldSet vehicles).1 = some b →
        b ≠ [] ∧ ∀ v ∈ b, v ∈ vehicles ∧ vehicleKey v ∉ oldSet)
    ∧ (∀ v ∈ vehicles, vehicleKey v ∉ oldSet →
        ∃ b, (vehiclesTick oldSet vehicles).1 = some b ∧ v ∈ b)
    ∧ ((∀ v ∈ vehicles, vehicleKey v ∈ oldSet) → (vehiclesTick oldSet vehicles).1 = none) := by
  have hmem : ∀ v, v ∈ vehicles.filter (fun v => ¬ oldSet.contains (vehicleKey v)) ↔
      v ∈ vehicles ∧ vehicleKey v ∉ oldSet := by
    intro v
    simp [List.mem_filter, List.elem_iff]
  by_cases he : (vehicles.filter (fun v => ¬ oldSet.contains (vehicleKey v))).isEmpty
  · have hfst : (vehiclesTick oldSet vehicles).1 = none := by
      simp only [vehiclesTick, he, if_true]
    have hnil : vehicles.filter (fun v => ¬ oldSet.contains (vehicleKey v)) = [] :=
      List.isEmpty_iff.mp he
    refine ⟨rfl, ?_, ?_, fun _ => hfst⟩
    · intro b hb
      rw [hfst] at hb
      cases hb
    · intro v hv hnot
      have : v ∈ vehicles.filter (fun v => ¬ oldSet.contains (vehicleKey v)) :=
        (hmem v).mpr ⟨hv, hnot⟩
      rw [hnil] at this
      cases this
  · have hfst : (vehiclesTick oldSet vehicles).1
        = some (vehicles.filter (fun v => ¬ oldSet.contains (vehicleKey v))) := by
      simp only [vehiclesTick, he, Bool.false_eq_true, if_false]
    refine ⟨rfl, ?_, ?_, ?_⟩
    · intro b hb
      rw [hfst] at hb
      obtain rfl : vehicles.filter (fun v => ¬ oldSet.contains (vehicleKey v)) = b := by
        injection hb
      exact ⟨fun hnil => he (by rw [hnil]; rfl), fun v hv => (hmem v).mp hv⟩
    · intro v hv hnot
      exact ⟨_, hfst, (hmem v).mpr ⟨hv, hnot⟩⟩
    · intro hall
      exfalso
      apply he
      rw [List.isEmpty_iff]
      rw [List.filter_eq_nil_iff]
      intro v hv
      simp [List.elem_iff, hall v hv]

/-- Claim C7: previous player-name snapshot `{a, b}`, fresh poll returning
players named `b` and `c` (all names distinct): the tick produces exactly
one `"join"` delta carrying `c`'s full record and exactly one `"leave"`
delta for `a`, both in one batch, and that batch is emitted as a single
event. -/
theorem playersTick_ab_bc (a b c : String) (pB pC : ERLCServerPlayer)
    (hB : pB.player = b) (hC : pC.player = c)
    (hab : a ≠ b) (hac : a ≠ c) (hbc : b ≠ c) :
    playersTick [a, b] [pB, pC]
      = ([⟨pC, "join"⟩, ⟨⟨a, "", "", ""⟩, "leave"⟩], [b, c])
    ∧ playersEmit [a, b] [pB, pC]
      = some [⟨pC, "join"⟩, ⟨⟨a, "", "", ""⟩, "leave"⟩] := by
  have hdedup : ([b, c] : List String).dedup = [b, c] := by
    rw [List.dedup_cons_of_not_mem (by simp [hbc]), List.dedup_cons_of_not_mem (by simp),
      List.dedup_nil]
  have htick : playersTick [a, b] [pB, pC]
      = ([⟨pC, "join"⟩, ⟨⟨a, "", "", ""⟩, "leave"⟩], [b, c]) := by
    simp [playersTick, newPlayerSetFromSlice, hB, hC, hdedup, hab, hac, hbc,
      Ne.symm hab, Ne.symm hac, Ne.symm hbc]
  exact ⟨htick, by simp [playersEmit, htick]⟩

/-- Witness for `playersTick_ab_bc` at the spec's concrete snapshot
`{A, B} -> {B, C}`. -/
theorem playersTick_ab_bc_witness :
    playersTick ["A", "B"] [⟨"B", "p1", "c1", "t1"⟩, ⟨"C", "p2", "c2", "t2"⟩]
      = ([⟨⟨"C", "p2", "c2", "t2"⟩, "join"⟩, ⟨⟨"A", "", "", ""⟩, "leave"⟩], ["B", "C"])
    ∧ playersEmit ["A", "B"] [⟨"B", "p1", "c1", "t1"⟩, ⟨"C", "p2", "c2", "t2"⟩]
      = some [⟨⟨"C", "p2", "c2", "t2"⟩, "join"⟩, ⟨⟨"A", "", "", ""⟩, "leave"⟩] :=
  playersTick_ab_bc "A" "B" "C" ⟨"B", "p1", "c1", "t1"⟩ ⟨"C", "p2", "c2", "t2"⟩ rfl rfl
    (by decide) (by decide) (by decide)

/-- Witness for `vehiclesTick_spec`: a fresh vehicle keyed `"o:n"` against
old set `{"x"}` is emitted in the batch. -/
theorem vehiclesTick_spec_witness :
    (⟨"t", "n", "o"⟩ : ERLCVehicle) ∈ ([⟨"t", "n", "o"⟩] : List ERLCVehicle)
    ∧ vehicleKey (⟨"t", "n", "o"⟩ : ERLCVehicle) ∉ (["x"] : List String)
    ∧ ∃ b, (vehiclesTick ["x"] [⟨"t", "n", "o"⟩]).1 = some b
        ∧ (⟨"t", "n", "o"⟩ : ERLCVehicle) ∈ b :=
  ⟨by simp, by decide,
    (vehiclesTick_spec ["x"] [⟨"t", "n", "o"⟩]).2.2.1 ⟨"t", "n", "o"⟩ (by simp) (by decide)⟩

/-- Claim C8: for each monotonic log entity (commands, kills, mod-calls,
joins), given a non-empty batch ordered newest-first (its head carries
the maximum timestamp): if that maximum is `≤` the recorded timestamp
nothing is emitted and the state is unchanged, and if it is strictly
greater the entire batch is emitted and the recorded timestamp advances
to it. -/
theorem monotonicLogTick_spec :
    (∀ (t : Int) (l : ERLCCommandLog) (rest : List ERLCCommandLog),
      (∀ x ∈ l :: rest, x.timestamp ≤ l.timestamp) →
      ((l.timestamp ≤ t → commandsTick t (l :: rest) = (none, t))
       ∧ (t < l.timestamp → commandsTick t (l :: rest) = (some (l :: rest), l.timestamp))))
    ∧ (∀ (t : Int) (l : ERLCKillLog) (rest : List ERLCKillLog),
      (∀ x ∈ l :: rest, x.timestamp ≤ l.timestamp) →
      ((l.timestamp ≤ t → killsTick t (l :: rest) = (none, t))
       ∧ (t < l.timestamp → killsTick t (l :: rest) = (some (l :: rest), l.timestamp))))
    ∧ (∀ (t : Int) (l : ERLCModCallLog) (rest : List ERLCModCallLog),
      (∀ x ∈ l :: rest, x.timestamp ≤ l.timestamp) →
      ((l.timestamp ≤ t → modCallsTick t (l :: rest) = (none, t))
       ∧ (t < l.timestamp → modCallsTick t (l :: rest) = (some (l :: rest), l.timestamp))))
    ∧ (∀ (t : Int) (l : ERLCJoinLog) (rest : List ERLCJoinLog),
      (∀ x ∈ l :: rest, x.timestamp ≤ l.timestamp) →
      ((l.timestamp ≤ t → joinsTick t (l :: rest) = (none, t))
       ∧ (t < l.timestamp → joinsTick t (l :: rest) = (some (l :: rest), l.timestamp)))) := by
  refine ⟨?_, ?_, ?_, ?_⟩ <;>
    · intro t l rest _
      constructor
      · intro h
        simp [commandsTick, killsTick, modCallsTick, joinsTick, not_lt.mpr h]
      · intro h
        simp [commandsTick, killsTick, modCallsTick, joinsTick, h]

/-- Witness for `monotonicLogTick_spec`: recorded timestamp 100 — a
batch with maximum 100 emits nothing, a batch with maximum 150 emits the
whole batch and advances to 150. -/
theorem monotonicLogTick_spec_witness :
    commandsTick 100 [⟨"p", 100, "c"⟩] = (none, 100)
    ∧ commandsTick 100 [⟨"p", 150, "c"⟩, ⟨"q", 120, "d"⟩]
        = (some [⟨"p", 150, "c"⟩, ⟨"q", 120, "d"⟩], 150) :=
  ⟨(monotonicLogTick_spec.1 100 ⟨"p", 100, "c"⟩ [] (by decide)).1 (by decide),
   (monotonicLogTick_spec.1 100 ⟨"p", 150, "c"⟩ [⟨"q", 120, "d"⟩] (by decide)).2 (by decide)⟩

/-- Claim C10: every `"leave"` delta the players tick produces carries a payload
whose only set field is the player name (permission, callsign and team
are empty regardless of history — the previous snapshot stores names
only), while every `"join"` delta carries a full record taken from the
fresh poll. -/
theorem playerDeltas_payload_spec (oldSet : List String) (players : List ERLCServerPlayer) :
    ∀ e ∈ (playersTick oldSet players).1,
      (e.type = "leave" →
        e.player.permission = "" ∧ e.player.callsign = "" ∧ e.player.team = "")
      ∧ (e.type = "join" → e.player ∈ players) := by
  intro e he
  simp only [playersTick] at he
  rw [List.mem_append] at he
  cases he with
  | inl hj =>
    rw [List.mem_map] at hj
    obtain ⟨p, hp, rfl⟩ := hj
    refine ⟨fun h => ?_, fun _ => (List.mem_filter.mp hp).1⟩
    simp at h
  | inr hl =>
    rw [List.mem_map] at hl
    obtain ⟨n, hn, rfl⟩ := hl
    refine ⟨fun _ => ⟨rfl, rfl, rfl⟩, fun h => ?_⟩
    simp at h

/-- Witness for `playerDeltas_payload_spec`: the leave delta for a player
`A` who vanished from the poll has empty permission, callsign and team. -/
theorem playerDeltas_payload_spec_witness :
    (⟨⟨"A", "", "", ""⟩, "leave"⟩ : PlayerEvent) ∈ (playersTick ["A"] []).1
    ∧ ((⟨⟨"A", "", "", ""⟩, "leave"⟩ : PlayerEvent).player.permission = ""
       ∧ (⟨⟨"A", "", "", ""⟩, "leave"⟩ : PlayerEvent).player.callsign = ""
       ∧ (⟨⟨"A", "", "", ""⟩, "leave"⟩ : PlayerEvent).player.team = "") := by
  have hmem : (⟨⟨"A", "", "", ""⟩, "leave"⟩ : PlayerEvent) ∈ (playersTick ["A"] []).1 := by
    simp [playersTick, newPlayerSetFromSlice]
  exact ⟨hmem, (playerDeltas_payload_spec ["A"] [] _ hmem).1 rfl⟩

/-- Every key `afterExec` touches: the read key and coalescing key are
exactly the ones passed in, and any write or stale-read key is the cache
fingerprint `pfx ++ url`. -/
theorem afterExec_keys {V : Type} (cfg : ClientCfg) (m : Method) (url : String)
    (c : MCache V) (now2 : ℚ) (exec : Except String V) (rkey ckey : Option String) :
    (afterExec cfg m url c now2 exec rkey ckey).cacheReadKey = rkey
    ∧ ((afterExec cfg m url c now2 exec rkey ckey).cacheWriteKey = none
       ∨ (afterExec cfg m url c now2 exec rkey ckey).cacheWriteKey = some (cfg.pfx ++ url))
    ∧ ((afterExec cfg m url c now2 exec rkey ckey).staleReadKey = none
       ∨ (afterExec cfg m url c now2 exec rkey ckey).staleReadKey = some (cfg.pfx ++ url))
    ∧ (afterExec cfg m url c now2 exec rkey ckey).coalesceKey = ckey := by
  cases exec with
  | ok body =>
    by_cases h : cfg.cacheEnabled = true ∧ m = .get
    · simp [afterExec, h]
    · simp [afterExec, h]
  | error e =>
    by_cases h : cfg.staleIfError = true
    · rcases hg : MCache.get c (cfg.pfx ++ url) now2 with ⟨f, c2⟩
      cases f with
      | none => simp [afterExec, h, hg]
      | some v => simp [afterExec, h, hg]
    · simp [afterExec, h]

/-- `afterExec` never reads the authentication fields. -/
theorem afterExec_auth_irrel {V : Type} (cfg : ClientCfg) (k g : String) (m : Method)
    (url : String) (c : MCache V) (now2 : ℚ) (exec : Except String V)
    (rkey ckey : Option String) :
    afterExec { cfg with apiKey := k, globalAPIKey := g } m url c now2 exec rkey ckey
      = afterExec cfg m url c now2 exec rkey ckey := by
  cases exec <;> rfl

/-- Claim C9: the whole observable outcome of a call — result, cache table,
and every key used — is unchanged when only the authentication keys
(server key, global API key) change, and whenever a cache key is used it
is exactly the prefix concatenated with the full URL while the
coalescing key is the URL alone.  Two clients differing only in their
credentials therefore read and write the same cache entry for the same
URL. -/
theorem doRequest_auth_noninterference {V : Type} (cfg : ClientCfg) (k g : String)
    (m : Method) (url : String) (cache : MCache V) (now1 now2 : ℚ) (exec : Except String V)
    (h1 : ¬ cfg.apiKey = "") (h2 : ¬ k = "") :
    doRequestModel { cfg with apiKey := k, globalAPIKey := g } m url cache now1 now2 exec
      = doRequestModel cfg m url cache now1 now2 exec
    ∧ (∀ s, (doRequestModel cfg m url cache now1 now2 exec).cacheReadKey = some s →
        s = cfg.pfx ++ url)
    ∧ (∀ s, (doRequestModel cfg m url cache now1 now2 exec).cacheWriteKey = some s →
        s = cfg.pfx ++ url)
    ∧ (∀ s, (doRequestModel cfg m url cache now1 now2 exec).staleReadKey = some s →
        s = cfg.pfx ++ url)
    ∧ (∀ s, (doRequestModel cfg m url cache now1 now2 exec).coalesceKey = some s →
        s = url) := by
  have heq : doRequestModel { cfg with apiKey := k, globalAPIKey := g } m url cache now1 now2 exec
      = doRequestModel cfg m url cache now1 now2 exec := by
    simp [doRequestModel, h1, h2, afterExec_auth_irrel]
  have hkeys : ∀ rkey ckey (c : MCache V),
      (rkey = none ∨ rkey = some (cfg.pfx ++ url)) → (ckey = none ∨ ckey = some url) →
      (∀ s, (afterExec cfg m url c now2 exec rkey ckey).cacheReadKey = some s →
          s = cfg.pfx ++ url)
      ∧ (∀ s, (afterExec cfg m url c now2 exec rkey ckey).cacheWriteKey = some s →
          s = cfg.pfx ++ url)
      ∧ (∀ s, (afterExec cfg m url c now2 exec rkey ckey).staleReadKey = some s →
          s = cfg.pfx ++ url)
      ∧ (∀ s, (afterExec cfg m url c now2 exec rkey ckey).coalesceKey = some s → s = url) := by
    intro rkey ckey c hr hc
    obtain ⟨k1, k2, k3, k4⟩ := afterExec_keys cfg m url c now2 exec rkey ckey
    refine ⟨?_, ?_, ?_, ?_⟩
    · intro s hs
      rw [k1] at hs
      rcases hr with h | h <;> rw [h] at hs
      · cases hs
      · injection hs with hs
        exact hs.symm
    · intro s hs
      rcases k2 with h | h <;> rw [h] at hs
      · cases hs
      · injection hs with hs
        exact hs.symm
    · intro s hs
      rcases k3 with h | h <;> rw [h] at hs
      · cases hs
      · injection hs with hs
        exact hs.symm
    · intro s hs
      rw [k4] at hs
      rcases hc with h | h <;> rw [h] at hs
      · cases hs
      · injection hs with hs
        exact hs.symm
  refine ⟨heq, ?_⟩
  by_cases hen : cfg.cacheEnabled = true ∧ m = .get
  · rcases hg : MCache.get cache (cfg.pfx ++ url) now1 with ⟨f, c1⟩
    cases f with
    | some v =>
      have hval : doRequestModel cfg m url cache now1 now2 exec
          = { result := .ok v, cache := c1, cacheReadKey := some (cfg.pfx ++ url)
              cacheWriteKey := none, staleReadKey := none, coalesceKey := none } := by
        simp [doRequestModel, h1, hen, hg]
      rw [hval]
      refine ⟨?_, ?_, ?_, ?_⟩ <;> intro s hs
      · injection hs with hs
        exact hs.symm
      · cases hs
      · cases hs
      · cases hs
    | none =>
      have hval : doRequestModel cfg m url cache now1 now2 exec
          = afterExec cfg m url c1 now2 exec (some (cfg.pfx ++ url))
              (if m = .get then some url else none) := by
        simp [doRequestModel, h1, hen, hg]
      rw [hval]
      refine hkeys _ _ _ (Or.inr rfl) ?_
      by_cases hm : m = .get
      · exact Or.inr (by rw [if_pos hm])
      · exact Or.inl (by rw [if_neg hm])
  · have hval : doRequestModel cfg m url cache now1 now2 exec
        = afterExec cfg m url cache now2 exec none
            (if m = .get then some url else none) := by
      simp [doRequestModel, h1, hen]
    rw [hval]
    refine hkeys _ _ _ (Or.inl rfl) ?_
    by_cases hm : m = .get
    · exact Or.inr (by rw [if_pos hm])
    · exact Or.inl (by rw [if_neg hm])

/-- Witness for `doRequest_auth_noninterference`: two clients differing
only in server key and global API key produce identical outcomes for the
same GET. -/
theorem doRequest_auth_noninterference_witness :
    doRequestModel (⟨"srv2", "g2", "p:", true, false, 5⟩ : ClientCfg) .get "u"
        ([] : MCache String) 0 0 (.ok "body")
      = doRequestModel (⟨"srv1", "g1", "p:", true, false, 5⟩ : ClientCfg) .get "u"
        ([] : MCache String) 0 0 (.ok "body") :=
  (doRequest_auth_noninterference (⟨"srv1", "g1", "p:", true, false, 5⟩ : ClientCfg)
    "srv2" "g2" .get "u" ([] : MCache String) 0 0 (.ok "body")
    (by decide) (by decide)).1

namespace Coalesce

/-- Updating thread `i` is visible at `i`. -/
theorem setThread_self {K R : Type} (ts : Nat → Option (TState K R)) (i : Nat) (t : TState K R) :
    setThread ts i t i = some t := by
  simp [setThread]

/-- Updating thread `i` leaves other threads unchanged. -/
theorem setThread_other {K R : Type} (ts : Nat → Option (TState K R)) (i j : Nat)
    (t : TState K R) (h : j ≠ i) : setThread ts i t j = ts j := by
  simp [setThread, h]

/-- In the initial system every thread is at `start`. -/
theorem initSys_thread {K R : Type} (pend : Nat → Option K) (i : Nat) (t : TState K R)
    (h : (initSys pend).threads i = some t) : ∃ k0, t = .start k0 := by
  cases hp : pend i with
  | none => simp [initSys, hp] at h
  | some k0 =>
    simp [initSys, hp] at h
    exact ⟨k0, h.symm⟩

/-- A thread that owns a record implies the record exists. -/
theorem owner_calls {K R : Type} {s : Sys K R} (hinv : Inv s) (j : Nat) (tj : TState K R)
    (c : Nat) (hj : s.threads j = some tj) (ho : ownerOf tj = some c) :
    ∃ k0 st, s.g.calls c = some (k0, st) := by
  cases tj with
  | computing k0 c0 =>
    simp [ownerOf] at ho
    subst ho
    exact ⟨k0, .running, (hinv.computing_st j k0 c0 hj).1⟩
  | finishing k0 c0 r0 =>
    simp [ownerOf] at ho
    subst ho
    exact ⟨k0, .done r0, (hinv.finishing_st j k0 c0 r0 hj).1⟩
  | start k0 => simp [ownerOf] at ho
  | waiting k0 c0 => simp [ownerOf] at ho
  | finished k0 c0 r0 => simp [ownerOf] at ho

/-- The invariant holds initially. -/
theorem inv_init {K R : Type} (pend : Nat → Option K) : Inv (initSys (R := R) pend) := by
  constructor
  · intro c _
    rfl
  · intro k c h
    simp [initSys] at h
  · intro c k h
    simp [initSys] at h
  · intro i k c h
    obtain ⟨k0, ht⟩ := initSys_thread pend i _ h
    cases ht
  · intro i k c r h
    obtain ⟨k0, ht⟩ := initSys_thread pend i _ h
    cases ht
  · intro i k c h
    obtain ⟨k0, ht⟩ := initSys_thread pend i _ h
    cases ht
  · intro i k c r h
    obtain ⟨k0, ht⟩ := initSys_thread pend i _ h
    cases ht
  · intro i j ti tj c hi hj hoi hoj
    obtain ⟨k0, ht⟩ := initSys_thread pend i _ hi
    subst ht
    simp [ownerOf] at hoi

end Coalesce

namespace Coalesce

/-- `lookupHit` preserves the invariant. -/
theorem inv_lookupHit {K R : Type} [DecidableEq K] {s : Sys K R} {i : Nat} {k : K} {c : Nat}
    (hinv : Inv s) (ht : s.threads i = some (.start k)) (hc : s.g.inflight k = some c) :
    Inv ⟨s.g, setThread s.threads i (.waiting k c)⟩ := by
  constructor
  · exact hinv.fresh
  · exact hinv.inflight_calls
  · exact hinv.running_inflight
  · intro j k' c' hj
    dsimp only at hj ⊢
    by_cases hji : j = i
    · subst hji
      rw [setThread_self] at hj
      simp at hj
    · rw [setThread_other _ _ _ _ hji] at hj
      exact hinv.computing_st j k' c' hj
  · intro j k' c' r' hj
    dsimp only at hj ⊢
    by_cases hji : j = i
    · subst hji
      rw [setThread_self] at hj
      simp at hj
    · rw [setThread_other _ _ _ _ hji] at hj
      exact hinv.finishing_st j k' c' r' hj
  · intro j k' c' hj
    dsimp only at hj ⊢
    by_cases hji : j = i
    · subst hji
      rw [setThread_self] at hj
      injection hj with hj
      cases hj
      exact hinv.inflight_calls k c hc
    · rw [setThread_other _ _ _ _ hji] at hj
      exact hinv.waiting_st j k' c' hj
  · intro j k' c' r' hj
    dsimp only at hj ⊢
    by_cases hji : j = i
    · subst hji
      rw [setThread_self] at hj
      simp at hj
    · rw [setThread_other _ _ _ _ hji] at hj
      exact hinv.finished_st j k' c' r' hj
  · intro j j' tj tj' c' hj hj' ho ho'
    dsimp only at hj hj'
    by_cases hji : j = i <;> by_cases hji' : j' = i
    · rw [hji, hji']
    · subst hji
      rw [setThread_self] at hj
      injection hj with hj
      subst hj
      simp [ownerOf] at ho
    · subst hji'
      rw [setThread_self] at hj'
      injection hj' with hj'
      subst hj'
      simp [ownerOf] at ho'
    · rw [setThread_other _ _ _ _ hji] at hj
      rw [setThread_other _ _ _ _ hji'] at hj'
      exact hinv.owner_unique j j' tj tj' c' hj hj' ho ho'

/-- `lookupMiss` preserves the invariant. -/
theorem inv_lookupMiss {K R : Type} [DecidableEq K] {s : Sys K R} {i : Nat} {k : K}
    (hinv : Inv s) (ht : s.threads i = some (.start k)) (hc : s.g.inflight k = none) :
    Inv (⟨{ inflight := fun k' => if k' = k then some s.g.nextId else s.g.inflight k'
            calls := fun c' => if c' = s.g.nextId then some (k, .running) else s.g.calls c'
            nextId := s.g.nextId + 1 },
          setThread s.threads i (.computing k s.g.nextId)⟩ : Sys K R) := by
  have hfr : s.g.calls s.g.nextId = none := hinv.fresh _ (le_refl _)
  constructor
  · intro c0 h0
    dsimp only at h0 ⊢
    rw [if_neg (by omega)]
    exact hinv.fresh c0 (by omega)
  · intro k' c' h
    dsimp only at h ⊢
    by_cases hk : k' = k
    · rw [if_pos hk] at h
      injection h with h
      subst h
      subst hk
      exact ⟨.running, by rw [if_pos rfl]⟩
    · rw [if_neg hk] at h
      obtain ⟨st, hst⟩ := hinv.inflight_calls k' c' h
      have hcn : c' ≠ s.g.nextId := by
        intro he
        rw [he, hfr] at hst
        cases hst
      exact ⟨st, by rw [if_neg hcn]; exact hst⟩
  · intro c' k' h
    dsimp only at h ⊢
    by_cases hcn : c' = s.g.nextId
    · rw [if_pos hcn] at h
      injection h with h
      have hk : k = k' := congrArg Prod.fst h
      rw [if_pos hk.symm, hcn]
    · rw [if_neg hcn] at h
      have hik := hinv.running_inflight c' k' h
      have hk : k' ≠ k := by
        intro he
        rw [he, hc] at hik
        cases hik
      rw [if_neg hk]
      exact hik
  · intro j k' c' hj
    dsimp only at hj ⊢
    by_cases hji : j = i
    · subst hji
      rw [setThread_self] at hj
      injection hj with hj
      injection hj with h1 h2
      subst h1
      subst h2
      exact ⟨by rw [if_pos rfl], by rw [if_pos rfl]⟩
    · rw [setThread_other _ _ _ _ hji] at hj
      obtain ⟨h1, h2⟩ := hinv.computing_st j k' c' hj
      have hcn : c' ≠ s.g.nextId := by
        intro he
        rw [he, hfr] at h1
        cases h1
      have hkn : k' ≠ k := by
        intro he
        rw [he, hc] at h2
        cases h2
      exact ⟨by rw [if_neg hcn]; exact h1, by rw [if_neg hkn]; exact h2⟩
  · intro j k' c' r' hj
    dsimp only at hj ⊢
    by_cases hji : j = i
    · subst hji
      rw [setThread_self] at hj
      simp at hj
    · rw [setThread_other _ _ _ _ hji] at hj
      obtain ⟨h1, h2⟩ := hinv.finishing_st j k' c' r' hj
      have hcn : c' ≠ s.g.nextId := by
        intro he
        rw [he, hfr] at h1
        cases h1
      have hkn : k' ≠ k := by
        intro he
        rw [he, hc] at h2
        cases h2
      exact ⟨by rw [if_neg hcn]; exact h1, by rw [if_neg hkn]; exact h2⟩
  · intro j k' c' hj
    dsimp only at hj ⊢
    by_cases hji : j = i
    · subst hji
      rw [setThread_self] at hj
      simp at hj
    · rw [setThread_other _ _ _ _ hji] at hj
      obtain ⟨st, hst⟩ := hinv.waiting_st j k' c' hj
      have hcn : c' ≠ s.g.nextId := by
        intro he
        rw [he, hfr] at hst
        cases hst
      exact ⟨st, by rw [if_neg hcn]; exact hst⟩
  · intro j k' c' r' hj
    dsimp only at hj ⊢
    by_cases hji : j = i
    · subst hji
      rw [setThread_self] at hj
      simp at hj
    · rw [setThread_other _ _ _ _ hji] at hj
      have hst := hinv.finished_st j k' c' r' hj
      have hcn : c' ≠ s.g.nextId := by
        intro he
        rw [he, hfr] at hst
        cases hst
      rw [if_neg hcn]
      exact hst
  · intro j j' tj tj' c' hj hj' ho ho'
    dsimp only at hj hj'
    by_cases hji : j = i <;> by_cases hji' : j' = i
    · rw [hji, hji']
    · subst hji
      rw [setThread_self] at hj
      injection hj with hj
      subst hj
      simp only [ownerOf, Option.some.injEq] at ho
      subst ho
      rw [setThread_other _ _ _ _ hji'] at hj'
      obtain ⟨k0, st, hcall⟩ := owner_calls hinv j' tj' s.g.nextId hj' ho'
      rw [hfr] at hcall
      cases hcall
    · subst hji'
      rw [setThread_self] at hj'
      injection hj' with hj'
      subst hj'
      simp only [ownerOf, Option.some.injEq] at ho'
      subst ho'
      rw [setThread_other _ _ _ _ hji] at hj
      obtain ⟨k0, st, hcall⟩ := owner_calls hinv j tj s.g.nextId hj ho
      rw [hfr] at hcall
      cases hcall
    · rw [setThread_other _ _ _ _ hji] at hj
      rw [setThread_other _ _ _ _ hji'] at hj'
      exact hinv.owner_unique j j' tj tj' c' hj hj' ho ho'

/-- `execFinish` preserves the invariant. -/
theorem inv_execFinish {K R : Type} [DecidableEq K] {s : Sys K R} {i : Nat} {k : K} {c : Nat}
    {r : R} (hinv : Inv s) (ht : s.threads i = some (.computing k c)) :
    Inv (⟨{ inflight := s.g.inflight
            calls := fun c' => if c' = c then some (k, .done r) else s.g.calls c'
            nextId := s.g.nextId },
          setThread s.threads i (.finishing k c r)⟩ : Sys K R) := by
  obtain ⟨hcall, hinf⟩ := hinv.computing_st i k c ht
  have hlt : c < s.g.nextId := by
    by_contra h
    rw [hinv.fresh c (by omega)] at hcall
    cases hcall
  constructor
  · intro c0 h0
    dsimp only at h0 ⊢
    rw [if_neg (by omega)]
    exact hinv.fresh c0 h0
  · intro k' c' h
    dsimp only at h ⊢
    obtain ⟨st, hst⟩ := hinv.inflight_calls k' c' h
    by_cases hcn : c' = c
    · subst hcn
      rw [hcall] at hst
      injection hst with hst
      have hk : k = k' := congrArg Prod.fst hst
      exact ⟨.done r, by rw [if_pos rfl, hk]⟩
    · rw [if_neg hcn]
      exact ⟨st, hst⟩
  · intro c' k' h
    dsimp only at h ⊢
    by_cases hcn : c' = c
    · rw [if_pos hcn] at h
      injection h with h
      have hsnd := congrArg Prod.snd h
      cases hsnd
    · rw [if_neg hcn] at h
      exact hinv.running_inflight c' k' h
  · intro j k' c' hj
    dsimp only at hj ⊢
    by_cases hji : j = i
    · subst hji
      rw [setThread_self] at hj
      simp at hj
    · rw [setThread_other _ _ _ _ hji] at hj
      obtain ⟨h1, h2⟩ := hinv.computing_st j k' c' hj
      have hcn : c' ≠ c := by
        intro he
        subst he
        exact hji (hinv.owner_unique j i (.computing k' c') (.computing k c') c' hj ht
          (by simp [ownerOf]) (by simp [ownerOf]))
      exact ⟨by rw [if_neg hcn]; exact h1, h2⟩
  · intro j k' c' r' hj
    dsimp only at hj ⊢
    by_cases hji : j = i
    · subst hji
      rw [setThread_self] at hj
      injection hj with hj
      injection hj with h1 h2 h3
      subst h1
      subst h2
      subst h3
      exact ⟨by rw [if_pos rfl], hinf⟩
    · rw [setThread_other _ _ _ _ hji] at hj
      obtain ⟨h1, h2⟩ := hinv.finishing_st j k' c' r' hj
      have hcn : c' ≠ c := by
        intro he
        subst he
        exact hji (hinv.owner_unique j i (.finishing k' c' r') (.computing k c') c' hj ht
          (by simp [ownerOf]) (by simp [ownerOf]))
      exact ⟨by rw [if_neg hcn]; exact h1, h2⟩
  · intro j k' c' hj
    dsimp only at hj ⊢
    by_cases hji : j = i
    · subst hji
      rw [setThread_self] at hj
      simp at hj
    · rw [setThread_other _ _ _ _ hji] at hj
      obtain ⟨st, hst⟩ := hinv.waiting_st j k' c' hj
      by_cases hcn : c' = c
      · subst hcn
        rw [hcall] at hst
        injection hst with hst
        have hk : k = k' := congrArg Prod.fst hst
        exact ⟨.done r, by rw [if_pos rfl, hk]⟩
      · rw [if_neg hcn]
        exact ⟨st, hst⟩
  · intro j k' c' r' hj
    dsimp only at hj ⊢
    by_cases hji : j = i
    · subst hji
      rw [setThread_self] at hj
      simp at hj
    · rw [setThread_other _ _ _ _ hji] at hj
      have hst := hinv.finished_st j k' c' r' hj
      have hcn : c' ≠ c := by
        intro he
        subst he
        rw [hcall] at hst
        injection hst with hst
        have hsnd := congrArg Prod.snd hst
        cases hsnd
      rw [if_neg hcn]
      exact hst
  · intro j j' tj tj' c0 hj hj' ho ho'
    dsimp only at hj hj'
    by_cases hji : j = i <;> by_cases hji' : j' = i
    · rw [hji, hji']
    · subst hji
      rw [setThread_self] at hj
      injection hj with hj
      subst hj
      simp only [ownerOf, Option.some.injEq] at ho
      subst ho
      rw [setThread_other _ _ _ _ hji'] at hj'
      exact (hinv.owner_unique j' j tj' (.computing k c) c hj' ht ho' (by simp [ownerOf])).symm
    · subst hji'
      rw [setThread_self] at hj'
      injection hj' with hj'
      subst hj'
      simp only [ownerOf, Option.some.injEq] at ho'
      subst ho'
      rw [setThread_other _ _ _ _ hji] at hj
      exact hinv.owner_unique j j' tj (.computing k c) c hj ht ho (by simp [ownerOf])
    · rw [setThread_other _ _ _ _ hji] at hj
      rw [setThread_other _ _ _ _ hji'] at hj'
      exact hinv.owner_unique j j' tj tj' c0 hj hj' ho ho'

/-- `removeEntry` preserves the invariant. -/
theorem inv_removeEntry {K R : Type} [DecidableEq K] {s : Sys K R} {i : Nat} {k : K} {c : Nat}
    {r : R} (hinv : Inv s) (ht : s.threads i = some (.finishing k c r)) :
    Inv (⟨{ inflight := fun k' => if k' = k then none else s.g.inflight k'
            calls := s.g.calls
            nextId := s.g.nextId },
          setThread s.threads i (.finished k c r)⟩ : Sys K R) := by
  obtain ⟨hcall, hinf⟩ := hinv.finishing_st i k c r ht
  constructor
  · intro c0 h0
    dsimp only at h0 ⊢
    exact hinv.fresh c0 h0
  · intro k' c' h
    dsimp only at h ⊢
    by_cases hk : k' = k
    · rw [if_pos hk] at h
      cases h
    · rw [if_neg hk] at h
      exact hinv.inflight_calls k' c' h
  · intro c' k' h
    dsimp only at h ⊢
    have hik := hinv.running_inflight c' k' h
    have hk : k' ≠ k := by
      intro he
      rw [he, hinf] at hik
      injection hik with hik
      rw [← hik, hcall] at h
      injection h with h
      have hsnd := congrArg Prod.snd h
      cases hsnd
    rw [if_neg hk]
    exact hik
  · intro j k' c' hj
    dsimp only at hj ⊢
    by_cases hji : j = i
    · subst hji
      rw [setThread_self] at hj
      simp at hj
    · rw [setThread_other _ _ _ _ hji] at hj
      obtain ⟨h1, h2⟩ := hinv.computing_st j k' c' hj
      have hk : k' ≠ k := by
        intro he
        rw [he, hinf] at h2
        injection h2 with h2
        rw [← h2, hcall] at h1
        injection h1 with h1
        have hsnd := congrArg Prod.snd h1
        cases hsnd
      exact ⟨h1, by rw [if_neg hk]; exact h2⟩
  · intro j k' c' r' hj
    dsimp only at hj ⊢
    by_cases hji : j = i
    · subst hji
      rw [setThread_self] at hj
      simp at hj
    · rw [setThread_other _ _ _ _ hji] at hj
      obtain ⟨h1, h2⟩ := hinv.finishing_st j k' c' r' hj
      have hk : k' ≠ k := by
        intro he
        rw [he, hinf] at h2
        injection h2 with h2
        exact hji (hinv.owner_unique j i (.finishing k' c' r') (.finishing k c r) c' hj ht
          (by simp [ownerOf]) (by simp [ownerOf, h2]))
      exact ⟨h1, by rw [if_neg hk]; exact h2⟩
  · intro j k' c' hj
    dsimp only at hj ⊢
    by_cases hji : j = i
    · subst hji
      rw [setThread_self] at hj
      simp at hj
    · rw [setThread_other _ _ _ _ hji] at hj
      exact hinv.waiting_st j k' c' hj
  · intro j k' c' r' hj
    dsimp only at hj ⊢
    by_cases hji : j = i
    · subst hji
      rw [setThread_self] at hj
      injection hj with hj
      injection hj with h1 h2 h3
      subst h1
      subst h2
      subst h3
      exact hcall
    · rw [setThread_other _ _ _ _ hji] at hj
      exact hinv.finished_st j k' c' r' hj
  · intro j j' tj tj' c0 hj hj' ho ho'
    dsimp only at hj hj'
    by_cases hji : j = i <;> by_cases hji' : j' = i
    · rw [hji, hji']
    · subst hji
      rw [setThread_self] at hj
      injection hj with hj
      subst hj
      simp [ownerOf] at ho
    · subst hji'
      rw [setThread_self] at hj'
      injection hj' with hj'
      subst hj'
      simp [ownerOf] at ho'
    · rw [setThread_other _ _ _ _ hji] at hj
      rw [setThread_other _ _ _ _ hji'] at hj'
      exact hinv.owner_unique j j' tj tj' c0 hj hj' ho ho'

/-- `waitDone` preserves the invariant. -/
theorem inv_waitDone {K R : Type} [DecidableEq K] {s : Sys K R} {i : Nat} {k : K} {c : Nat}
    {r : R} (hinv : Inv s) (ht : s.threads i = some (.waiting k c))
    (hc : s.g.calls c = some (k, .done r)) :
    Inv ⟨s.g, setThread s.threads i (.finished k c r)⟩ := by
  constructor
  · exact hinv.fresh
  · exact hinv.inflight_calls
  · exact hinv.running_inflight
  · intro j k' c' hj
    dsimp only at hj ⊢
    by_cases hji : j = i
    · subst hji
      rw [setThread_self] at hj
      simp at hj
    · rw [setThread_other _ _ _ _ hji] at hj
      exact hinv.computing_st j k' c' hj
  · intro j k' c' r' hj
    dsimp only at hj ⊢
    by_cases hji : j = i
    · subst hji
      rw [setThread_self] at hj
      simp at hj
    · rw [setThread_other _ _ _ _ hji] at hj
      exact hinv.finishing_st j k' c' r' hj
  · intro j k' c' hj
    dsimp only at hj ⊢
    by_cases hji : j = i
    · subst hji
      rw [setThread_self] at hj
      simp at hj
    · rw [setThread_other _ _ _ _ hji] at hj
      exact hinv.waiting_st j k' c' hj
  · intro j k' c' r' hj
    dsimp only at hj ⊢
    by_cases hji : j = i
    · subst hji
      rw [setThread_self] at hj
      injection hj with hj
      injection hj with h1 h2 h3
      subst h1
      subst h2
      subst h3
      exact hc
    · rw [setThread_other _ _ _ _ hji] at hj
      exact hinv.finished_st j k' c' r' hj
  · intro j j' tj tj' c0 hj hj' ho ho'
    dsimp only at hj hj'
    by_cases hji : j = i <;> by_cases hji' : j' = i
    · rw [hji, hji']
    · subst hji
      rw [setThread_self] at hj
      injection hj with hj
      subst hj
      simp [ownerOf] at ho
    · subst hji'
      rw [setThread_self] at hj'
      injection hj' with hj'
      subst hj'
      simp [ownerOf] at ho'
    · rw [setThread_other _ _ _ _ hji] at hj
      rw [setThread_other _ _ _ _ hji'] at hj'
      exact hinv.owner_unique j j' tj tj' c0 hj hj' ho ho'

/-- Every step preserves the invariant. -/
theorem inv_step {K R : Type} [DecidableEq K] {s s' : Sys K R} {i : Nat}
    (hinv : Inv s) (hst : Step i s s') : Inv s' := by
  cases hst with
  | lookupHit k c ht hc => exact inv_lookupHit hinv ht hc
  | lookupMiss k ht hc => exact inv_lookupMiss hinv ht hc
  | execFinish k c r ht => exact inv_execFinish hinv ht
  | removeEntry k c r ht => exact inv_removeEntry hinv ht
  | waitDone k c r ht hc => exact inv_waitDone hinv ht hc

/-- The invariant holds in every reachable state. -/
theorem inv_reachable {K R : Type} [DecidableEq K] {s0 s : Sys K R}
    (h : Reachable s0 s) (h0 : Inv s0) : Inv s := by
  induction h with
  | refl => exact h0
  | tail _ _ _ hstep ih =>
    obtain ⟨i, hi⟩ := hstep
    exact inv_step ih hi

/-- Claim C1: in every reachable state of the coalescer, (a) any two `Do`
callers that returned from the same call record observed the same key
and the same result — the one recorded by that record's single
execution; (b) at most one execution per key is in flight; (c) each call
record has exactly one executing thread, so the wrapped function runs
exactly once per record; (d) a `Do` whose locked lookup happens after
the prior call's record was removed can only step by registering a fresh,
never-executed record and re-executing the function. -/
theorem coalescer_spec {K R : Type} [DecidableEq K] (pend : Nat → Option K) (s : Sys K R)
    (h : Reachable (initSys pend) s) :
    (∀ i j k k' c r r', s.threads i = some (.finished k c r) →
        s.threads j = some (.finished k' c r') → k = k' ∧ r = r')
    ∧ (∀ k c c', s.g.calls c = some (k, .running) → s.g.calls c' = some (k, .running) → c = c')
    ∧ (∀ i j ti tj c, s.threads i = some ti → s.threads j = some tj →
        ownerOf ti = some c → ownerOf tj = some c → i = j)
    ∧ (∀ i k s', s.threads i = some (.start k) → s.g.inflight k = none → Step i s s' →
        s'.threads i = some (.computing k s.g.nextId) ∧ s.g.calls s.g.nextId = none
        ∧ s'.g.calls s.g.nextId = some (k, .running)) := by
  have hinv := inv_reachable h (inv_init pend)
  refine ⟨?_, ?_, ?_, ?_⟩
  · intro i j k k' c r r' hi hj
    have h1 := hinv.finished_st i k c r hi
    have h2 := hinv.finished_st j k' c r' hj
    rw [h1] at h2
    injection h2 with h2
    have hk := congrArg Prod.fst h2
    have hr := congrArg Prod.snd h2
    refine ⟨hk, ?_⟩
    injection hr
  · intro k c c' h1 h2
    have i1 := hinv.running_inflight c k h1
    have i2 := hinv.running_inflight c' k h2
    rw [i1] at i2
    exact Option.some.inj i2
  · intro i j ti tj c hi hj ho ho'
    exact hinv.owner_unique i j ti tj c hi hj ho ho'
  · intro i k s' hti hinfl hstep
    cases hstep with
    | lookupHit k2 c ht hc =>
      rw [hti] at ht
      injection ht with ht
      injection ht with hk
      rw [← hk, hinfl] at hc
      cases hc
    | lookupMiss k2 ht hc =>
      rw [hti] at ht
      injection ht with ht
      injection ht with hk
      subst hk
      refine ⟨?_, hinv.fresh _ (le_refl _), ?_⟩
      · dsimp only
        rw [setThread_self]
      · dsimp only
        rw [if_pos rfl]
    | execFinish k2 c r ht =>
      rw [hti] at ht
      simp at ht
    | removeEntry k2 c r ht =>
      rw [hti] at ht
      simp at ht
    | waitDone k2 c r ht hc =>
      rw [hti] at ht
      simp at ht

/-- Witness for `coalescer_spec`: from the initial system with one
pending `Do("k")`, the only step available to the caller (the prior
record being absent) registers the fresh record `0` and starts a new
execution. -/
theorem coalescer_spec_witness :
    sys1.threads 0 = some (.computing "k" sys0.g.nextId)
    ∧ sys0.g.calls sys0.g.nextId = none
    ∧ sys1.g.calls sys0.g.nextId = some ("k", .running) :=
  (coalescer_spec pend0 sys0 (Reachable.refl sys0)).2.2.2 0 "k" sys1 rfl rfl
    (Step.lookupMiss sys0 "k" rfl rfl)

end Coalesce
